import Mathlib

/-!
Verification of the ring-buffer and orchestration logic of `song-detector.js`.

The JavaScript source keeps a circular byte buffer (`circularBuffer`, a
zero-filled `Buffer` of `BUFFER_SIZE` bytes) together with a `writeOffset`.
`writeChunkToCircularBuffer` copies an incoming chunk into the buffer,
wrapping at the end; `getSnapshot` rebuilds the chronologically ordered
contents.  We embed the buffer as a `List Nat` of byte values and the JS
`while` loop as a fuel-indexed recursion where running out of fuel (`none`)
models divergence of the loop.
-/

namespace SongDetector

/-- Byte store state: the JS globals `circularBuffer` and `writeOffset`. -/
@[ext] structure RingState where
  storage : List Nat
  writeOffset : Nat
deriving DecidableEq

/-- Semantics of Node's `src.copy(dst, start)`: overwrite `dst` from index
`start` with the bytes of `src`, truncating at the end of `dst` and never
changing the length of `dst`. -/
def copyInto (dst : List Nat) (start : Nat) (src : List Nat) : List Nat :=
  dst.take start ++ src.take (dst.length - start) ++ dst.drop (start + src.length)

/-- `SAMPLE_RATE` constant of the source. -/
def SAMPLE_RATE : Nat := 44100

/-- `CHANNELS` constant of the source. -/
def CHANNELS : Nat := 1

/-- `BYTES_PER_SAMPLE` constant of the source. -/
def BYTES_PER_SAMPLE : Nat := 2

/-- `BUFFER_SECONDS` constant of the source. -/
def BUFFER_SECONDS : Nat := 4

/-- `BUFFER_SIZE = SAMPLE_RATE * CHANNELS * BYTES_PER_SAMPLE * BUFFER_SECONDS`. -/
def BUFFER_SIZE : Nat := SAMPLE_RATE * CHANNELS * BYTES_PER_SAMPLE * BUFFER_SECONDS

/-- The initial globals: `circularBuffer = Buffer.alloc(cap)` (zero-filled)
and `writeOffset = 0`.  The source fixes `cap = BUFFER_SIZE`; we keep the
capacity as a parameter so that the spec's concrete scenarios (capacity 4
and 6) are instances of the same definitions. -/
def initialRingState (cap : Nat) : RingState :=
  ⟨List.replicate cap 0, 0⟩

/-- `getSnapshot()`: allocate a fresh zero buffer of `cap` bytes, copy
`circularBuffer.slice(writeOffset)` to position 0 and
`circularBuffer.slice(0, writeOffset)` right after it. -/
def getSnapshot (cap : Nat) (s : RingState) : List Nat :=
  let snapshot0 := List.replicate cap 0
  let endPart := s.storage.drop s.writeOffset
  let startPart := s.storage.take s.writeOffset
  let snapshot1 := copyInto snapshot0 0 endPart
  copyInto snapshot1 endPart.length startPart

/-- The `while (remaining > 0)` loop of `writeChunkToCircularBuffer`,
with an explicit fuel bound; `none` models a diverging loop.  Each
iteration computes `spaceUntilEnd = cap - writeOffset`,
`bytesToWrite = min spaceUntilEnd remaining`, copies
`chunk[chunkOffset : chunkOffset + bytesToWrite]` into the storage at
`writeOffset`, and advances `writeOffset` modulo `cap`. -/
def writeLoop (cap : Nat) (chunk : List Nat) :
    Nat → Nat → Nat → RingState → Option RingState
  | fuel, remaining, chunkOffset, s =>
    if remaining = 0 then some s
    else
      match fuel with
      | 0 => none
      | fuel + 1 =>
        let spaceUntilEnd := cap - s.writeOffset
        let bytesToWrite := min spaceUntilEnd remaining
        let storage :=
          copyInto s.storage s.writeOffset ((chunk.drop chunkOffset).take bytesToWrite)
        writeLoop cap chunk fuel (remaining - bytesToWrite) (chunkOffset + bytesToWrite)
          ⟨storage, (s.writeOffset + bytesToWrite) % cap⟩

/-- `writeChunkToCircularBuffer(chunk)`: run the loop starting from
`remaining = chunk.length`, `chunkOffset = 0`.  A fuel of `chunk.length`
steps is enough whenever the loop terminates, because every productive
iteration consumes at least one byte of `remaining`. -/
def writeChunkToCircularBuffer (cap : Nat) (chunk : List Nat) (s : RingState) :
    Option RingState :=
  writeLoop cap chunk chunk.length chunk.length 0 s

/-- Writing a list of chunks in call order (the stream of `data` events
feeding `writeChunkToCircularBuffer`). -/
def writeAll (cap : Nat) : List (List Nat) → RingState → Option RingState
  | [], s => some s
  | c :: cs, s => (writeChunkToCircularBuffer cap c s).bind (writeAll cap cs)

/- ### Basic facts about `copyInto` and `getSnapshot` -/

theorem copyInto_length (dst : List Nat) (start : Nat) (src : List Nat) :
    (copyInto dst start src).length = dst.length := by
  simp only [copyInto, List.length_append, List.length_take, List.length_drop]
  omega

theorem copyInto_of_fits (dst : List Nat) (start : Nat) (src : List Nat)
    (h : start + src.length ≤ dst.length) :
    copyInto dst start src = dst.take start ++ src ++ dst.drop (start + src.length) := by
  unfold copyInto
  congr 2
  exact List.take_of_length_le (by omega)

/-- Building a snapshot of an end part `E` and a start part `S` by the two
`copy` calls of `getSnapshot` yields `E ++ S`. -/
theorem snapshot_build (cap wo : Nat) (E S : List Nat)
    (hE : E.length = cap - wo) (hS : S.length = wo) (hwo : wo ≤ cap) :
    copyInto (copyInto (List.replicate cap 0) 0 E) E.length S = E ++ S := by
  have h1 : copyInto (List.replicate cap 0) 0 E = E ++ List.replicate wo 0 := by
    rw [copyInto_of_fits _ _ _ (by rw [List.length_replicate]; omega)]
    rw [List.take_zero, List.drop_replicate]
    have h0 : cap - (0 + E.length) = wo := by omega
    rw [h0]
    simp
  rw [h1, copyInto_of_fits _ _ _ (by rw [List.length_append, List.length_replicate]; omega)]
  rw [List.take_left]
  have h2 : (E ++ List.replicate wo 0).drop (E.length + S.length) = [] :=
    List.drop_eq_nil_of_le (by rw [List.length_append, List.length_replicate]; omega)
  rw [h2]
  simp

/-- The snapshot really is `storage[writeOffset:] ++ storage[:writeOffset]`. -/
theorem getSnapshot_eq (cap : Nat) (s : RingState)
    (hlen : s.storage.length = cap) (hwo : s.writeOffset ≤ cap) :
    getSnapshot cap s = s.storage.drop s.writeOffset ++ s.storage.take s.writeOffset := by
  have hE : (s.storage.drop s.writeOffset).length = cap - s.writeOffset := by
    rw [List.length_drop, hlen]
  have hS : (s.storage.take s.writeOffset).length = s.writeOffset := by
    rw [List.length_take, hlen]
    exact Nat.min_eq_left hwo
  exact snapshot_build cap s.writeOffset _ _ hE hS hwo

/-- The snapshot has exactly `cap` bytes. -/
theorem getSnapshot_length (cap : Nat) (s : RingState)
    (hlen : s.storage.length = cap) (hwo : s.writeOffset ≤ cap) :
    (getSnapshot cap s).length = cap := by
  rw [getSnapshot_eq cap s hlen hwo]
  simp [hlen]
  omega

/- ### One iteration of the write loop, seen through the snapshot -/

/-- Copying `c1` at `writeOffset` (with room before the wrap point) and
advancing the offset shifts the chronological view: the new snapshot is the
old one with `c1` appended and the oldest `c1.length` bytes dropped. -/
theorem snap_step (cap wo : Nat) (st c1 : List Nat)
    (hlen : st.length = cap) (hwo : wo < cap) (hk : c1.length ≤ cap - wo) :
    getSnapshot cap ⟨copyInto st wo c1, (wo + c1.length) % cap⟩
      = ((st.drop wo ++ st.take wo) ++ c1).drop c1.length := by
  have hcap : 0 < cap := by omega
  have hfits : wo + c1.length ≤ st.length := by omega
  have hlen2 : (copyInto st wo c1).length = cap := by rw [copyInto_length]; exact hlen
  have hwo2 : (wo + c1.length) % cap < cap := Nat.mod_lt _ hcap
  have e1 : getSnapshot cap ⟨copyInto st wo c1, (wo + c1.length) % cap⟩
      = (copyInto st wo c1).drop ((wo + c1.length) % cap)
        ++ (copyInto st wo c1).take ((wo + c1.length) % cap) :=
    getSnapshot_eq cap _ hlen2 (Nat.le_of_lt hwo2)
  rw [e1, copyInto_of_fits _ _ _ hfits]
  have hdlen : (st.drop wo).length = cap - wo := by rw [List.length_drop, hlen]
  have htlen : (st.take wo).length = wo := by
    rw [List.length_take, hlen]
    exact Nat.min_eq_left (Nat.le_of_lt hwo)
  have hR : ((st.drop wo ++ st.take wo) ++ c1).drop c1.length
      = st.drop (wo + c1.length) ++ (st.take wo ++ c1) := by
    rw [List.append_assoc]
    rw [List.drop_append_of_le_length (by rw [hdlen]; omega)]
    rw [List.drop_drop]
  rw [hR]
  rcases Nat.lt_or_ge (wo + c1.length) cap with hlt | hge
  · rw [Nat.mod_eq_of_lt hlt]
    have hTl : (st.take wo ++ c1).length = wo + c1.length := by
      rw [List.length_append, htlen]
    rw [List.drop_left' hTl, List.take_left' hTl]
  · have heq : wo + c1.length = cap := by omega
    rw [heq, Nat.mod_self, List.drop_zero, List.take_zero, List.append_nil]
    rw [List.drop_eq_nil_of_le (by omega)]
    simp

/- ### The write loop: termination, offset arithmetic, length preservation -/

/-- If the loop is entered with `writeOffset < cap` and at least `remaining`
steps of fuel, it terminates (`some`), advances the offset by `remaining`
modulo `cap`, and preserves the storage length.  No assumption on the
storage length is needed. -/
theorem writeLoop_offset (cap : Nat) (chunk : List Nat) :
    ∀ (fuel rem co : Nat) (s : RingState),
      s.writeOffset < cap → rem ≤ fuel →
      ∃ t, writeLoop cap chunk fuel rem co s = some t ∧
        t.writeOffset = (s.writeOffset + rem) % cap ∧
        t.storage.length = s.storage.length := by
  intro fuel
  induction fuel with
  | zero =>
    intro rem co s hwo hrem
    have h0 : rem = 0 := Nat.le_zero.mp hrem
    subst h0
    refine ⟨s, by unfold writeLoop; simp, ?_, rfl⟩
    rw [Nat.add_zero, Nat.mod_eq_of_lt hwo]
  | succ fuel ih =>
    intro rem co s hwo hrem
    by_cases h0 : rem = 0
    · subst h0
      refine ⟨s, by unfold writeLoop; simp, ?_, rfl⟩
      rw [Nat.add_zero, Nat.mod_eq_of_lt hwo]
    · have hcap : 0 < cap := by omega
      obtain ⟨t, ht, hoff, hlenr⟩ := ih (rem - min (cap - s.writeOffset) rem)
        (co + min (cap - s.writeOffset) rem)
        ⟨copyInto s.storage s.writeOffset
          ((chunk.drop co).take (min (cap - s.writeOffset) rem)),
         (s.writeOffset + min (cap - s.writeOffset) rem) % cap⟩
        (Nat.mod_lt _ hcap) (by omega)
      refine ⟨t, ?_, ?_, ?_⟩
      · unfold writeLoop
        rw [if_neg h0]
        exact ht
      · rw [hoff, Nat.mod_add_mod]
        congr 1
        omega
      · rw [hlenr]
        exact copyInto_length _ _ _

/-- Dropping `n` from an append can be staged: first drop `m ≤ n` inside the
left part, then the remaining `n - m`. -/
theorem drop_append_shift (A c2 : List Nat) (n m : Nat) (hmn : m ≤ n) (hmA : m ≤ A.length) :
    (A ++ c2).drop n = (A.drop m ++ c2).drop (n - m) := by
  have h1 : n = m + (n - m) := by omega
  conv_lhs => rw [h1, ← List.drop_drop]
  rw [List.drop_append_of_le_length hmA]

/- ### The write loop: effect on the snapshot -/

/-- Full functional behaviour of the loop on a well-formed state: the final
snapshot is the old snapshot with the written slice of the chunk appended
and the same number of oldest bytes dropped. -/
theorem writeLoop_snapshot (cap : Nat) (chunk : List Nat) :
    ∀ (fuel rem co : Nat) (s : RingState),
      s.storage.length = cap → s.writeOffset < cap → rem ≤ fuel →
      co + rem ≤ chunk.length →
      ∃ t, writeLoop cap chunk fuel rem co s = some t ∧
        t.storage.length = cap ∧
        t.writeOffset = (s.writeOffset + rem) % cap ∧
        getSnapshot cap t = (getSnapshot cap s ++ (chunk.drop co).take rem).drop rem := by
  intro fuel
  induction fuel with
  | zero =>
    intro rem co s hlen hwo hrem hco
    have h0 : rem = 0 := Nat.le_zero.mp hrem
    subst h0
    refine ⟨s, by unfold writeLoop; simp, hlen, ?_, by simp⟩
    rw [Nat.add_zero, Nat.mod_eq_of_lt hwo]
  | succ fuel ih =>
    intro rem co s hlen hwo hrem hco
    by_cases h0 : rem = 0
    · subst h0
      refine ⟨s, by unfold writeLoop; simp, hlen, ?_, by simp⟩
      rw [Nat.add_zero, Nat.mod_eq_of_lt hwo]
    · have hcap : 0 < cap := by omega
      have hc1len : ((chunk.drop co).take (min (cap - s.writeOffset) rem)).length
          = min (cap - s.writeOffset) rem := by
        rw [List.length_take, List.length_drop]
        omega
      have hlen2 : (copyInto s.storage s.writeOffset
          ((chunk.drop co).take (min (cap - s.writeOffset) rem))).length = cap := by
        rw [copyInto_length]; exact hlen
      obtain ⟨t, ht, hlenr, hoff, hsnap⟩ := ih (rem - min (cap - s.writeOffset) rem)
        (co + min (cap - s.writeOffset) rem)
        ⟨copyInto s.storage s.writeOffset
          ((chunk.drop co).take (min (cap - s.writeOffset) rem)),
         (s.writeOffset + min (cap - s.writeOffset) rem) % cap⟩
        hlen2 (Nat.mod_lt _ hcap) (by omega) (by omega)
      refine ⟨t, ?_, hlenr, ?_, ?_⟩
      · unfold writeLoop
        rw [if_neg h0]
        exact ht
      · rw [hoff, Nat.mod_add_mod]
        congr 1
        omega
      · -- rewrite the snapshot of the intermediate state via `snap_step`
        have hstep : getSnapshot cap
            ⟨copyInto s.storage s.writeOffset
              ((chunk.drop co).take (min (cap - s.writeOffset) rem)),
             (s.writeOffset + min (cap - s.writeOffset) rem) % cap⟩
            = ((s.storage.drop s.writeOffset ++ s.storage.take s.writeOffset)
                ++ (chunk.drop co).take (min (cap - s.writeOffset) rem)).drop
                (min (cap - s.writeOffset) rem) := by
          have := snap_step cap s.writeOffset s.storage
            ((chunk.drop co).take (min (cap - s.writeOffset) rem))
            hlen hwo (by omega)
          rw [hc1len] at this
          exact this
        rw [hsnap, hstep, ← getSnapshot_eq cap s hlen (Nat.le_of_lt hwo)]
        -- split the chunk slice at the first iteration's boundary
        have hsplit : (chunk.drop co).take rem
            = (chunk.drop co).take (min (cap - s.writeOffset) rem)
              ++ (chunk.drop (co + min (cap - s.writeOffset) rem)).take
                  (rem - min (cap - s.writeOffset) rem) := by
          have hrw : rem = min (cap - s.writeOffset) rem
              + (rem - min (cap - s.writeOffset) rem) := by omega
          conv_lhs => rw [hrw]
          rw [List.take_add, List.drop_drop]
        rw [hsplit]
        have hAl : (getSnapshot cap s
            ++ (chunk.drop co).take (min (cap - s.writeOffset) rem)).length
            = cap + min (cap - s.writeOffset) rem := by
          rw [List.length_append, getSnapshot_length cap s hlen (Nat.le_of_lt hwo), hc1len]
        rw [← List.append_assoc]
        exact (drop_append_shift _ _ rem (min (cap - s.writeOffset) rem)
          (by omega) (by rw [hAl]; omega)).symm

/- ### `writeChunkToCircularBuffer`: top-level specifications -/

/-- Full behaviour of one `writeChunkToCircularBuffer` call on a well-formed
state: it terminates, keeps the storage length, advances the offset by the
chunk length modulo `cap`, and the new snapshot is the old snapshot with the
chunk appended and the oldest `chunk.length` bytes dropped. -/
theorem writeChunk_spec (cap : Nat) (chunk : List Nat) (s : RingState)
    (hlen : s.storage.length = cap) (hwo : s.writeOffset < cap) :
    ∃ t, writeChunkToCircularBuffer cap chunk s = some t ∧
      t.storage.length = cap ∧
      t.writeOffset = (s.writeOffset + chunk.length) % cap ∧
      getSnapshot cap t = (getSnapshot cap s ++ chunk).drop chunk.length := by
  obtain ⟨t, ht, h1, h2, h3⟩ := writeLoop_snapshot cap chunk chunk.length chunk.length 0 s
    hlen hwo (Nat.le_refl _) (by omega)
  refine ⟨t, ht, h1, h2, ?_⟩
  have hch : (chunk.drop 0).take chunk.length = chunk := by
    rw [List.drop_zero]
    exact List.take_of_length_le (Nat.le_refl _)
  rw [h3, hch]

/-- Offset arithmetic and termination of a `writeChunkToCircularBuffer` call
need no assumption on the storage contents: only `writeOffset < cap`. -/
theorem writeChunk_offset (cap : Nat) (chunk : List Nat) (s : RingState)
    (hwo : s.writeOffset < cap) :
    ∃ t, writeChunkToCircularBuffer cap chunk s = some t ∧
      t.writeOffset = (s.writeOffset + chunk.length) % cap ∧
      t.storage.length = s.storage.length :=
  writeLoop_offset cap chunk chunk.length chunk.length 0 s hwo (Nat.le_refl _)

/-- A ring state is determined by its write offset and its snapshot. -/
theorem ringState_eq_of_snapshot_eq (cap : Nat) (s t : RingState)
    (hs : s.storage.length = cap) (ht : t.storage.length = cap)
    (hws : s.writeOffset ≤ cap) (hwt : t.writeOffset ≤ cap)
    (hwo : s.writeOffset = t.writeOffset)
    (hsnap : getSnapshot cap s = getSnapshot cap t) : s = t := by
  rw [getSnapshot_eq cap s hs hws, getSnapshot_eq cap t ht hwt] at hsnap
  have hlen1 : (s.storage.drop s.writeOffset).length = (t.storage.drop t.writeOffset).length := by
    rw [List.length_drop, List.length_drop, hs, ht, hwo]
  obtain ⟨h1, h2⟩ := List.append_inj hsnap hlen1
  have hst : s.storage = t.storage := by
    calc s.storage
        = s.storage.take s.writeOffset ++ s.storage.drop s.writeOffset :=
          (List.take_append_drop _ _).symm
      _ = t.storage.take t.writeOffset ++ t.storage.drop t.writeOffset := by rw [h1, h2]
      _ = t.storage := List.take_append_drop _ _
  exact RingState.ext hst hwo

/-- Writing a concatenation is writing the pieces in order. -/
theorem writeChunk_append (cap : Nat) (a b : List Nat) (s : RingState)
    (hlen : s.storage.length = cap) (hwo : s.writeOffset < cap) :
    writeChunkToCircularBuffer cap (a ++ b) s
      = (writeChunkToCircularBuffer cap a s).bind (writeChunkToCircularBuffer cap b) := by
  have hcap : 0 < cap := by omega
  obtain ⟨t1, ht1, hl1, hw1, hs1⟩ := writeChunk_spec cap a s hlen hwo
  have hw1lt : t1.writeOffset < cap := by rw [hw1]; exact Nat.mod_lt _ hcap
  obtain ⟨t2, ht2, hl2, hw2, hs2⟩ := writeChunk_spec cap b t1 hl1 hw1lt
  obtain ⟨t3, ht3, hl3, hw3, hs3⟩ := writeChunk_spec cap (a ++ b) s hlen hwo
  rw [ht1, ht3]
  have hbind : (some t1).bind (writeChunkToCircularBuffer cap b)
      = writeChunkToCircularBuffer cap b t1 := rfl
  rw [hbind, ht2]
  have hsnaplen : a.length ≤ (getSnapshot cap s ++ a).length := by
    rw [List.length_append]
    omega
  have hw : t3.writeOffset = t2.writeOffset := by
    rw [hw3, hw2, hw1, Nat.mod_add_mod, List.length_append, Nat.add_assoc]
  have hsnap : getSnapshot cap t3 = getSnapshot cap t2 := by
    rw [hs3, hs2, hs1, List.length_append, ← List.append_assoc]
    rw [drop_append_shift _ b (a.length + b.length) a.length (by omega) hsnaplen]
    rw [Nat.add_sub_cancel_left]
  congr 1
  exact ringState_eq_of_snapshot_eq cap t3 t2 hl3 hl2
    (by rw [hw3]; exact Nat.le_of_lt (Nat.mod_lt _ hcap))
    (by rw [hw2]; exact Nat.le_of_lt (Nat.mod_lt _ hcap))
    hw hsnap

/-- Writing a list of chunks is writing their concatenation at once. -/
theorem writeAll_eq_flatten (cap : Nat) :
    ∀ (chunks : List (List Nat)) (s : RingState),
      s.storage.length = cap → s.writeOffset < cap →
      writeAll cap chunks s = writeChunkToCircularBuffer cap chunks.flatten s := by
  intro chunks
  induction chunks with
  | nil =>
    intro s hlen hwo
    show some s = writeChunkToCircularBuffer cap [] s
    unfold writeChunkToCircularBuffer writeLoop
    simp
  | cons c cs ih =>
    intro s hlen hwo
    have hcap : 0 < cap := by omega
    rw [List.flatten_cons, writeChunk_append cap c cs.flatten s hlen hwo]
    obtain ⟨t1, ht1, hl1, hw1, _⟩ := writeChunk_spec cap c s hlen hwo
    show (writeChunkToCircularBuffer cap c s).bind (writeAll cap cs)
        = (writeChunkToCircularBuffer cap c s).bind (writeChunkToCircularBuffer cap cs.flatten)
    rw [ht1]
    exact ih t1 hl1 (by rw [hw1]; exact Nat.mod_lt _ hcap)

/- ### Claims about the ring buffer -/

/-- Claim C1: for every ring-buffer state (storage of length `capacity`,
`0 ≤ writeOffset < capacity`), `getSnapshot` returns a buffer of exactly
`capacity` bytes equal to `storage[writeOffset:capacity] ++ storage[0:writeOffset]`,
unconditionally (also before the buffer has been filled once). -/
theorem claim_C1_snapshot (cap : Nat) (s : RingState)
    (hlen : s.storage.length = cap) (hwo : s.writeOffset < cap) :
    (getSnapshot cap s).length = cap ∧
    getSnapshot cap s = s.storage.drop s.writeOffset ++ s.storage.take s.writeOffset :=
  ⟨getSnapshot_length cap s hlen (Nat.le_of_lt hwo),
   getSnapshot_eq cap s hlen (Nat.le_of_lt hwo)⟩

theorem claim_C1_witness :
    (getSnapshot 4 ⟨[10, 20, 30, 40], 1⟩).length = 4 ∧
    getSnapshot 4 ⟨[10, 20, 30, 40], 1⟩ = [20, 30, 40, 10] := by
  obtain ⟨h1, h2⟩ := claim_C1_snapshot 4 ⟨[10, 20, 30, 40], 1⟩ (by decide) (by decide)
  exact ⟨h1, by rw [h2]; rfl⟩

/-- Claim C2: for every chunk (also empty or longer than `capacity`), the
write succeeds and the new offset is `(writeOffset + chunk.length) % capacity`;
writing a chunk whose length is a multiple of `capacity` leaves the offset
unchanged. -/
theorem claim_C2_offset (cap : Nat) (chunk : List Nat) (s : RingState)
    (hwo : s.writeOffset < cap) :
    ∃ t, writeChunkToCircularBuffer cap chunk s = some t ∧
      t.writeOffset = (s.writeOffset + chunk.length) % cap ∧
      (cap ∣ chunk.length → t.writeOffset = s.writeOffset) := by
  obtain ⟨t, ht, hw, _⟩ := writeChunk_offset cap chunk s hwo
  refine ⟨t, ht, hw, fun hdvd => ?_⟩
  obtain ⟨m, hm⟩ := hdvd
  rw [hw, hm, Nat.add_mul_mod_self_left, Nat.mod_eq_of_lt hwo]

theorem claim_C2_witness :
    ∃ t, writeChunkToCircularBuffer 4 [1, 2, 3, 4, 5, 6, 7, 8] ⟨[0, 0, 0, 0], 2⟩ = some t ∧
      t.writeOffset = (2 + 8) % 4 ∧ ((4 : Nat) ∣ 8 → t.writeOffset = 2) :=
  claim_C2_offset 4 [1, 2, 3, 4, 5, 6, 7, 8] ⟨[0, 0, 0, 0], 2⟩ (by decide)

/-- Claim C3: the state after writing a stream is independent of how the
stream is chunked; writing a list of chunks equals writing their
concatenation. -/
theorem claim_C3_chunking (cap : Nat) (s : RingState)
    (hlen : s.storage.length = cap) (hwo : s.writeOffset < cap) :
    (∀ chunks : List (List Nat),
      writeAll cap chunks s = writeChunkToCircularBuffer cap chunks.flatten s) ∧
    (∀ chunks1 chunks2 : List (List Nat), chunks1.flatten = chunks2.flatten →
      writeAll cap chunks1 s = writeAll cap chunks2 s) := by
  refine ⟨fun chunks => writeAll_eq_flatten cap chunks s hlen hwo,
    fun c1 c2 h => ?_⟩
  rw [writeAll_eq_flatten cap c1 s hlen hwo, writeAll_eq_flatten cap c2 s hlen hwo, h]

theorem claim_C3_witness :
    writeAll 4 [[1], [2, 3, 4]] ⟨[0, 0, 0, 0], 0⟩
      = writeChunkToCircularBuffer 4 [1, 2, 3, 4] ⟨[0, 0, 0, 0], 0⟩ ∧
    writeAll 4 [[1], [2, 3, 4]] ⟨[0, 0, 0, 0], 0⟩
      = writeAll 4 [[1, 2], [3], [4]] ⟨[0, 0, 0, 0], 0⟩ := by
  obtain ⟨h1, h2⟩ := claim_C3_chunking 4 ⟨[0, 0, 0, 0], 0⟩ (by decide) (by decide)
  exact ⟨h1 [[1], [2, 3, 4]], h2 [[1], [2, 3, 4]] [[1, 2], [3], [4]] (by decide)⟩

/-- The snapshot of the freshly constructed buffer is all zeroes. -/
theorem getSnapshot_initial (cap : Nat) :
    getSnapshot cap (initialRingState cap) = List.replicate cap 0 := by
  rw [getSnapshot_eq cap _ (by simp [initialRingState]) (Nat.zero_le cap)]
  simp [initialRingState]

/-- Claim C4: exact-fill identity — from the fresh buffer, writing chunks
whose total length is exactly `capacity` makes the snapshot equal to their
concatenation in call order. -/
theorem claim_C4_exact_fill (cap : Nat) (chunks : List (List Nat))
    (hcap : 0 < cap) (htot : chunks.flatten.length = cap) :
    ∃ t, writeAll cap chunks (initialRingState cap) = some t ∧
      getSnapshot cap t = chunks.flatten := by
  have hlen : (initialRingState cap).storage.length = cap := by simp [initialRingState]
  have hwo : (initialRingState cap).writeOffset < cap := hcap
  rw [writeAll_eq_flatten cap chunks _ hlen hwo]
  obtain ⟨t, ht, hl, hw, hs⟩ := writeChunk_spec cap chunks.flatten _ hlen hwo
  refine ⟨t, ht, ?_⟩
  rw [hs, htot, getSnapshot_initial cap]
  exact List.drop_left' (by simp)

theorem claim_C4_witness :
    ∃ t, writeAll 4 [[1, 2, 3], [4]] (initialRingState 4) = some t ∧
      getSnapshot 4 t = [1, 2, 3, 4] := by
  obtain ⟨t, ht, hs⟩ := claim_C4_exact_fill 4 [[1, 2, 3], [4]] (by decide) (by decide)
  exact ⟨t, ht, by rw [hs]; rfl⟩

/-- Claim C5: cold-buffer prefix — from the fresh buffer, after writing fewer
than `capacity` bytes the snapshot still succeeds and is a zero prefix of
length `capacity - written` followed by the written bytes in order. -/
theorem claim_C5_cold_prefix (cap : Nat) (chunks : List (List Nat))
    (hcap : 0 < cap) (htot : chunks.flatten.length < cap) :
    ∃ t, writeAll cap chunks (initialRingState cap) = some t ∧
      getSnapshot cap t
        = List.replicate (cap - chunks.flatten.length) 0 ++ chunks.flatten := by
  have hlen : (initialRingState cap).storage.length = cap := by simp [initialRingState]
  have hwo : (initialRingState cap).writeOffset < cap := hcap
  rw [writeAll_eq_flatten cap chunks _ hlen hwo]
  obtain ⟨t, ht, hl, hw, hs⟩ := writeChunk_spec cap chunks.flatten _ hlen hwo
  refine ⟨t, ht, ?_⟩
  rw [hs, getSnapshot_initial cap]
  rw [List.drop_append_of_le_length (by rw [List.length_replicate]; omega)]
  rw [List.drop_replicate]

theorem claim_C5_witness :
    ∃ t, writeAll 4 [[7], [8]] (initialRingState 4) = some t ∧
      getSnapshot 4 t = [0, 0, 7, 8] := by
  obtain ⟨t, ht, hs⟩ := claim_C5_cold_prefix 4 [[7], [8]] (by decide) (by decide)
  exact ⟨t, ht, by rw [hs]; rfl⟩

/-- Claim C6: a single chunk longer than the capacity wraps, and only its
final `capacity` bytes remain: the snapshot equals the chunk's last
`capacity` bytes in order. -/
theorem claim_C6_overlong (cap : Nat) (chunk : List Nat) (s : RingState)
    (hlen : s.storage.length = cap) (hwo : s.writeOffset < cap)
    (hbig : cap ≤ chunk.length) :
    ∃ t, writeChunkToCircularBuffer cap chunk s = some t ∧
      getSnapshot cap t = chunk.drop (chunk.length - cap) := by
  obtain ⟨t, ht, hl, hw, hs⟩ := writeChunk_spec cap chunk s hlen hwo
  refine ⟨t, ht, ?_⟩
  have hsl : (getSnapshot cap s).length = cap :=
    getSnapshot_length cap s hlen (Nat.le_of_lt hwo)
  have h0 : (getSnapshot cap s).drop cap = [] := List.drop_eq_nil_of_le hsl.le
  rw [hs, drop_append_shift (getSnapshot cap s) chunk chunk.length cap
    (by omega) hsl.ge]
  rw [h0, List.nil_append]

theorem claim_C6_witness :
    ∃ t, writeChunkToCircularBuffer 6 [1, 2, 3, 4, 5, 6, 7, 8, 9] (initialRingState 6)
        = some t ∧
      getSnapshot 6 t = [4, 5, 6, 7, 8, 9] := by
  obtain ⟨t, ht, hs⟩ := claim_C6_overlong 6 [1, 2, 3, 4, 5, 6, 7, 8, 9]
    (initialRingState 6) (by decide) (by decide) (by decide)
  exact ⟨t, ht, by rw [hs]; rfl⟩

/-- Claim C8: the invariant `0 ≤ writeOffset < capacity` holds initially and
is preserved by every write, whatever the chunk length. -/
theorem claim_C8_invariant (cap : Nat) (hcap : 0 < cap) :
    (initialRingState cap).writeOffset < cap ∧
    ∀ (s : RingState) (chunk : List Nat), s.writeOffset < cap →
      ∃ t, writeChunkToCircularBuffer cap chunk s = some t ∧ t.writeOffset < cap := by
  refine ⟨hcap, fun s chunk hwo => ?_⟩
  obtain ⟨t, ht, hw, _⟩ := writeChunk_offset cap chunk s hwo
  exact ⟨t, ht, by rw [hw]; exact Nat.mod_lt _ hcap⟩

theorem claim_C8_witness :
    (initialRingState 4).writeOffset < 4 ∧
    ∃ t, writeChunkToCircularBuffer 4 [7, 8, 9] ⟨[1, 2, 3, 4], 3⟩ = some t ∧
      t.writeOffset < 4 :=
  ⟨(claim_C8_invariant 4 (by decide)).1,
   (claim_C8_invariant 4 (by decide)).2 ⟨[1, 2, 3, 4], 3⟩ [7, 8, 9] (by decide)⟩

/-- Claim C10: the copy loop of the write terminates for every finite chunk
as soon as `capacity > 0` and `writeOffset < capacity` on entry; a fuel of
`chunk.length` iterations suffices because every iteration writes at least
one byte while `remaining > 0`. -/
theorem claim_C10_termination (cap : Nat) (chunk : List Nat) (s : RingState)
    (hcap : 0 < cap) (hwo : s.writeOffset < cap) :
    ∃ t, writeChunkToCircularBuffer cap chunk s = some t := by
  obtain ⟨t, ht, _, _⟩ := writeChunk_offset cap chunk s hwo
  exact ⟨t, ht⟩

theorem claim_C10_witness :
    ∃ t, writeChunkToCircularBuffer 3 [1, 2, 3, 4, 5, 6, 7] ⟨[0, 0, 0], 1⟩ = some t :=
  claim_C10_termination 3 [1, 2, 3, 4, 5, 6, 7] ⟨[0, 0, 0], 1⟩ (by decide) (by decide)

/- ### Claim C9: snapshots do not mutate the buffer state -/

/-- `getSnapshot` as a state transformer on the globals: the function reads
`circularBuffer` and `writeOffset` and writes only into its freshly
allocated `snapshot` buffer (both `copy` calls target `snapshot`), so the
global state component comes back unchanged. -/
def getSnapshotOp (cap : Nat) (s : RingState) : List Nat × RingState :=
  (getSnapshot cap s, s)

/-- An event acting on the buffer: a `data` event carrying a chunk, or a
snapshot request from the trigger handler. -/
inductive BufOp where
  | write (chunk : List Nat)
  | snap

/-- Whether an event is a write. -/
def isWrite : BufOp → Bool
  | BufOp.write _ => true
  | BufOp.snap => false

/-- Run a sequence of buffer events, returning the final state together with
the list of snapshot results produced along the way. -/
def runOps (cap : Nat) : List BufOp → RingState → Option (RingState × List (List Nat))
  | [], s => some (s, [])
  | BufOp.write c :: ops, s =>
    (writeChunkToCircularBuffer cap c s).bind (fun s1 => runOps cap ops s1)
  | BufOp.snap :: ops, s =>
    (runOps cap ops (getSnapshotOp cap s).2).map
      (fun p => (p.1, (getSnapshotOp cap s).1 :: p.2))

/-- Claim C9: a snapshot leaves the state unchanged; taking a snapshot
before any event sequence only prepends its value and changes nothing else;
and deleting all snapshot events from a sequence does not change the final
state, so snapshots never alter later writes or later snapshots. -/
theorem claim_C9_frame (cap : Nat) :
    (∀ s : RingState, (getSnapshotOp cap s).2 = s) ∧
    (∀ (s : RingState) (ops : List BufOp),
      runOps cap (BufOp.snap :: ops) s
        = (runOps cap ops s).map (fun p => (p.1, getSnapshot cap s :: p.2))) ∧
    (∀ (s : RingState) (ops : List BufOp),
      (runOps cap ops s).map Prod.fst
        = (runOps cap (ops.filter isWrite) s).map Prod.fst) := by
  refine ⟨fun s => rfl, fun s ops => rfl, fun s ops => ?_⟩
  induction ops generalizing s with
  | nil => rfl
  | cons op ops ih =>
    cases op with
    | write c =>
      have hf : (BufOp.write c :: ops).filter isWrite
          = BufOp.write c :: ops.filter isWrite := by
        simp [List.filter_cons, isWrite]
      have hL : runOps cap (BufOp.write c :: ops) s
          = (writeChunkToCircularBuffer cap c s).bind (fun s1 => runOps cap ops s1) := rfl
      have hR : runOps cap (BufOp.write c :: ops.filter isWrite) s
          = (writeChunkToCircularBuffer cap c s).bind
              (fun s1 => runOps cap (ops.filter isWrite) s1) := rfl
      rw [hf, hL, hR]
      cases h : writeChunkToCircularBuffer cap c s with
      | none => rfl
      | some t =>
        show (runOps cap ops t).map Prod.fst
            = (runOps cap (ops.filter isWrite) t).map Prod.fst
        exact ih t
    | snap =>
      have hf : (BufOp.snap :: ops).filter isWrite = ops.filter isWrite := by
        simp [List.filter_cons, isWrite]
      rw [hf]
      show ((runOps cap ops s).map
            (fun p => (p.1, getSnapshot cap s :: p.2))).map Prod.fst
          = (runOps cap (ops.filter isWrite) s).map Prod.fst
      rw [Option.map_map]
      have hcomp : (Prod.fst ∘ fun p : RingState × List (List Nat) =>
          (p.1, getSnapshot cap s :: p.2)) = Prod.fst := funext fun p => rfl
      rw [hcomp]
      exact ih s

/- ### Claim C7: device restoration in `main` -/

/-- `BLACKHOLE_NAME` constant of the source. -/
def BLACKHOLE_NAME : String := "BlackHole 2ch"

/-- The observable device/process actions performed by `main`. -/
inductive MainAction where
  | switchInput (device : String)
  | startRecording
  | warmUp
  | waitKeypress
  | takeSnapshot
  | recognize
  | killRecording
  | exitProcess (code : Nat)
deriving DecidableEq

/-- The actions of `main`'s `try` block, in program order: switch the input
to BlackHole, start the continuous recording, warm up the buffer, wait for
the keypress, take the snapshot, hand it to the recognition call. -/
def tryBlockActions : List MainAction :=
  [MainAction.switchInput BLACKHOLE_NAME, MainAction.startRecording,
   MainAction.warmUp, MainAction.waitKeypress, MainAction.takeSnapshot,
   MainAction.recognize]

/-- The actions of `main`'s `finally` block: kill the ffmpeg process, switch
back to the original input, exit with code 0. -/
def finallyActions (originalInput : String) : List MainAction :=
  [MainAction.killRecording, MainAction.switchInput originalInput,
   MainAction.exitProcess 0]

/-- How a `main()` run can end.  `errorInTry k` is an exception thrown after
the first `k` actions of the `try` block completed (the `finally` block then
runs).  `cancelled k` is external termination of the process after `k`
actions: the source installs no signal or cancellation handler, so under
Node semantics the process dies where it is and the `finally` block never
runs. -/
inductive ExitPath where
  | normal
  | errorInTry (k : Nat)
  | cancelled (k : Nat)

/-- The trace of observable actions of one `main()` run on each exit path,
read off the `try`/`finally` structure of `main`. -/
def mainTrace (originalInput : String) : ExitPath → List MainAction
  | ExitPath.normal => tryBlockActions ++ finallyActions originalInput
  | ExitPath.errorInTry k => tryBlockActions.take k ++ finallyActions originalInput
  | ExitPath.cancelled k => tryBlockActions.take k

/-- How many times a trace restores the original input device. -/
def restoreCount (originalInput : String) (trace : List MainAction) : Nat :=
  trace.count (MainAction.switchInput originalInput)

/-- Claim C7 fails as stated: on the external-cancellation exit path the
original device is restored zero times, not once — here, cancellation while
`main` waits for the keypress (after 3 completed try-block actions) with
original input "MacBook Pro Microphone". -/
theorem claim_C7_counterexample :
    restoreCount "MacBook Pro Microphone"
      (mainTrace "MacBook Pro Microphone" (ExitPath.cancelled 3)) = 0 := by
  decide

/-- Claim C7 amended: the original device is restored exactly once on normal
completion and exactly once when an error is raised anywhere inside the
`try` block (capture or recognition handoff); external cancellation is not
handled and restores zero times. -/
theorem claim_C7_amended (originalInput : String)
    (h : originalInput ≠ BLACKHOLE_NAME) :
    restoreCount originalInput (mainTrace originalInput ExitPath.normal) = 1 ∧
    ∀ k, restoreCount originalInput (mainTrace originalInput (ExitPath.errorInTry k)) = 1 := by
  have hnot : MainAction.switchInput originalInput ∉ tryBlockActions := by
    simp only [tryBlockActions, List.mem_cons, List.not_mem_nil, or_false]
    intro hmem
    rcases hmem with h1 | h1 | h1 | h1 | h1 | h1 <;> simp_all
  have hcount0 : ∀ k : Nat,
      (tryBlockActions.take k).count (MainAction.switchInput originalInput) = 0 := by
    intro k
    exact List.count_eq_zero.mpr (fun hmem => hnot (List.take_subset _ _ hmem))
  have hfin : (finallyActions originalInput).count
      (MainAction.switchInput originalInput) = 1 := by
    simp [finallyActions, List.count_cons]
  constructor
  · show (tryBlockActions ++ finallyActions originalInput).count
        (MainAction.switchInput originalInput) = 1
    rw [List.count_append, List.count_eq_zero.mpr hnot, hfin]
  · intro k
    show (tryBlockActions.take k ++ finallyActions originalInput).count
        (MainAction.switchInput originalInput) = 1
    rw [List.count_append, hcount0 k, hfin]

theorem claim_C7_witness :
    restoreCount "Mic" (mainTrace "Mic" ExitPath.normal) = 1 ∧
    restoreCount "Mic" (mainTrace "Mic" (ExitPath.errorInTry 2)) = 1 := by
  obtain ⟨h1, h2⟩ := claim_C7_amended "Mic" (by decide)
  exact ⟨h1, h2 2⟩

end SongDetector
